import Mathlib

/-!
Verification of the proc-maps memory-map parser and its query layer.

The development shallowly embeds `src/linux_maps.rs`:

* `MapRange` mirrors the Rust struct (machine addresses become `Nat`,
  bounded by `USIZE_MAX` exactly where the Rust numeric parser enforces it);
* `parse_proc_maps` mirrors the line-by-line parser; Rust code that panics
  on malformed input (`unwrap`, failed `from_str_radix`) is modelled as an
  `Option` that is `none` on those inputs, so `none` means "the parse call
  fails as a whole";
* `MapRange.is_read` / `is_write` / `is_exec` mirror the byte-slicing
  predicates `&flags[0..1] == "r"` etc.; a Rust slicing panic (index out of
  bounds or not a UTF-8 character boundary) is again modelled as `none`;
* the query layer (`maps_contain_addr`, `maps_contain_addr_range`) lives in
  the crate root, which is not part of the sources provided; those two
  functions are modelled from the specification and from the concrete
  expectations of the in-repository test `test_contains_addr_range`.
-/

/-- Largest value of the 64-bit `usize` type used for addresses, offsets,
inodes and sizes. -/
def USIZE_MAX : Nat := 2 ^ 64 - 1

/-- Embedding of the Rust struct `MapRange` from `linux_maps.rs`.  `usize`
fields become `Nat`; `PathBuf` keeps the originating string. -/
structure MapRange where
  range_start : Nat
  range_end : Nat
  offset : Nat
  dev : String
  flags : String
  inode : Nat
  pathname : Option String
deriving DecidableEq, Repr

/-- Splits a character list at every occurrence of `sep`, keeping empty
pieces, exactly like Rust's `str::split` with a one-character pattern:
there is always at least one piece. -/
def splitOnChar (sep : Char) : List Char → List (List Char)
  | [] => [[]]
  | c :: cs =>
    match splitOnChar sep cs with
    | [] => [[]]
    | piece :: rest =>
      if c = sep then [] :: piece :: rest else (c :: piece) :: rest

/-- Rust's `char::is_whitespace`: membership in the Unicode `White_Space`
set. -/
def isRustWhitespace (c : Char) : Bool :=
  let v := c.toNat
  (decide (9 ≤ v) && decide (v ≤ 13)) || decide (v = 32) || decide (v = 0x85) ||
  decide (v = 0xA0) || decide (v = 0x1680) ||
  (decide (0x2000 ≤ v) && decide (v ≤ 0x200A)) || decide (v = 0x2028) ||
  decide (v = 0x2029) || decide (v = 0x202F) || decide (v = 0x205F) ||
  decide (v = 0x3000)

/-- Worker for `splitWS`; `cur` holds the reversed current token. -/
def splitWSGo (cur : List Char) : List Char → List (List Char)
  | [] => if cur = [] then [] else [cur.reverse]
  | c :: cs =>
    if isRustWhitespace c then
      if cur = [] then splitWSGo [] cs else cur.reverse :: splitWSGo [] cs
    else
      splitWSGo (c :: cur) cs

/-- Rust's `str::split_whitespace`: whitespace-separated tokens, runs of
whitespace collapsed, no empty tokens. -/
def splitWS (l : List Char) : List (List Char) :=
  splitWSGo [] l

/-- Rust's `char::to_digit radix`: digit value of `c` in the given radix,
`none` when `c` is not a digit of that radix. -/
def charToDigit (radix : Nat) (c : Char) : Option Nat :=
  let v := c.toNat
  let d : Option Nat :=
    if 48 ≤ v ∧ v ≤ 57 then some (v - 48)
    else if 97 ≤ v ∧ v ≤ 122 then some (v - 87)
    else if 65 ≤ v ∧ v ≤ 90 then some (v - 55)
    else none
  match d with
  | some d => if d < radix then some d else none
  | none => none

/-- Accumulating digit fold used by `from_str_radix`. -/
def digitsToNat (radix : Nat) : List Char → Nat → Option Nat
  | [], acc => some acc
  | c :: cs, acc =>
    match charToDigit radix c with
    | none => none
    | some d => digitsToNat radix cs (acc * radix + d)

/-- Rust's `usize::from_str_radix`: an optional leading `+`, then at least
one digit of the radix; values above `USIZE_MAX` overflow and fail. -/
def from_str_radix (s : List Char) (radix : Nat) : Option Nat :=
  let digits :=
    match s with
    | '+' :: rest => rest
    | _ => s
  match digits with
  | [] => none
  | _ =>
    match digitsToNat radix digits 0 with
    | none => none
    | some v => if v ≤ USIZE_MAX then some v else none

/-- Pathname built from the fields that follow the inode: tokens rejoined
with single spaces; an empty result is no pathname (`linux_maps.rs`,
the `filter (not is_empty)` on the joined tail). -/
def pathnameOfRest (rest : List (List Char)) : Option String :=
  let p := List.intercalate [' '] rest
  if p = [] then none else some (String.mk p)

/-- One line of `/proc/PID/maps`, given its whitespace-split fields, as
`parse_proc_maps` handles it: range field split on `-`, both halves parsed
as hex, then flags, hex offset, device string, decimal inode, and the
rejoined pathname.  Any `unwrap`/parse panic in the Rust code is `none`. -/
def parseMapLine : List (List Char) → Option MapRange
  | range :: flags :: offset :: dev :: inode :: rest =>
    match splitOnChar '-' range with
    | rs :: re :: _ => do
      let s ← from_str_radix rs 16
      let e ← from_str_radix re 16
      let off ← from_str_radix offset 16
      let ino ← from_str_radix inode 10
      some { range_start := s, range_end := e, offset := off,
             dev := String.mk dev, flags := String.mk flags, inode := ino,
             pathname := pathnameOfRest rest }
    | _ => none
  | _ => none

/-- The parsing loop of `parse_proc_maps` over the `\n`-split lines: a line
with no fields breaks out of the loop returning the records so far; a line
whose fields fail `parseMapLine` aborts the whole call (`none`). -/
def parseLinesGo : List (List Char) → Option (List MapRange)
  | [] => some []
  | line :: rest =>
    match splitWS line with
    | [] => some []
    | f :: fs =>
      match parseMapLine (f :: fs) with
      | none => none
      | some r => (parseLinesGo rest).map (fun v => r :: v)

/-- Embedding of `parse_proc_maps` from `linux_maps.rs`: split the contents
on `\n` and run the line loop.  `none` models the panic taken on any
malformed line. -/
def parse_proc_maps (contents : String) : Option (List MapRange) :=
  parseLinesGo (splitOnChar '\n' contents.data)

/-- UTF-8 encoding of one character, byte values as `Nat`. -/
def utf8EncodeChar (c : Char) : List Nat :=
  let v := c.toNat
  if v < 0x80 then [v]
  else if v < 0x800 then
    [0xC0 ||| (v >>> 6), 0x80 ||| (v &&& 0x3F)]
  else if v < 0x10000 then
    [0xE0 ||| (v >>> 12), 0x80 ||| ((v >>> 6) &&& 0x3F), 0x80 ||| (v &&& 0x3F)]
  else
    [0xF0 ||| (v >>> 18), 0x80 ||| ((v >>> 12) &&& 0x3F),
     0x80 ||| ((v >>> 6) &&& 0x3F), 0x80 ||| (v &&& 0x3F)]

/-- UTF-8 byte sequence of a string, the representation Rust's `str`
slicing operates on. -/
def strBytes (s : String) : List Nat :=
  (s.data.map utf8EncodeChar).flatten

/-- Rust's `str::is_char_boundary` on the byte list: position `0`, the end
of the string, or any byte that is not a UTF-8 continuation byte. -/
def isCharBoundary (bs : List Nat) (i : Nat) : Bool :=
  decide (i = 0) || decide (i = bs.length) ||
    (decide (i < bs.length) && !(decide (0x80 ≤ bs.getD i 0) && decide (bs.getD i 0 < 0xC0)))

/-- Rust's `&s[a..b]` on the byte list: `none` models the slicing panic
when the bounds are out of range or not character boundaries. -/
def byteSlice (bs : List Nat) (a b : Nat) : Option (List Nat) :=
  if decide (a ≤ b) && isCharBoundary bs a && isCharBoundary bs b then
    some ((bs.drop a).take (b - a))
  else none

/-- Embedding of `MapRange::is_read`: `&self.flags[0..1] == "r"`; `none`
models the slicing panic. -/
def MapRange.is_read (m : MapRange) : Option Bool :=
  (byteSlice (strBytes m.flags) 0 1).map (fun s => decide (s = [0x72]))

/-- Embedding of `MapRange::is_write`: `&self.flags[1..2] == "w"`; `none`
models the slicing panic. -/
def MapRange.is_write (m : MapRange) : Option Bool :=
  (byteSlice (strBytes m.flags) 1 2).map (fun s => decide (s = [0x77]))

/-- Embedding of `MapRange::is_exec`: `&self.flags[2..3] == "x"`; `none`
models the slicing panic. -/
def MapRange.is_exec (m : MapRange) : Option Bool :=
  (byteSlice (strBytes m.flags) 2 3).map (fun s => decide (s = [0x78]))

/-- Modelled from the spec: the trait method `contains_addr` lives in the
crate root, which is not among the provided sources.  The spec (§4.3)
defines point containment as `start <= addr < end`, half-open. -/
def MapRange.contains_addr (m : MapRange) (addr : Nat) : Bool :=
  decide (m.range_start ≤ addr) && decide (addr < m.range_end)

/-- Modelled from the spec: `maps_contain_addr` lives in the crate root,
which is not among the provided sources.  True iff some region of the
collection contains the address (§4.3). -/
def maps_contain_addr (addr : Nat) (maps : List MapRange) : Bool :=
  maps.any (fun m => m.contains_addr addr)

/-- Loop of the modelled `maps_contain_addr_range`: find a region holding
the current start; if the remaining range fits inside it succeed, otherwise
continue at that region's end with the remaining size.  Each step strictly
shrinks the set of regions ending beyond the current start, so
`maps.length + 1` fuel is never exhausted; running out of fuel is `false`. -/
def containRangeGo (maps : List MapRange) : Nat → Nat → Nat → Bool
  | 0, _, _ => false
  | fuel + 1, start, size =>
    if size = 0 then true
    else
      match maps.find? (fun m => m.contains_addr start) with
      | none => false
      | some m =>
        if start + size ≤ m.range_end then true
        else containRangeGo maps fuel m.range_end (size - (m.range_end - start))

/-- Modelled from the spec: `maps_contain_addr_range` lives in the crate
root, which is not among the provided sources.  The spec fixes the guards
(`size == 0` is false; an `addr + size` that overflows `usize` is false,
§4.3/§7), and the concrete expectations of §8 together with the
in-repository test `test_contains_addr_range` (`linux_maps.rs`) require
that a range spanning several back-to-back regions counts as contained, so
the model walks forward region by region. -/
def maps_contain_addr_range (start size : Nat) (maps : List MapRange) : Bool :=
  if size = 0 then false
  else if 2 ^ 64 ≤ start + size then false
  else containRangeGo maps (maps.length + 1) start size

/-- Follows the spec's words in §4.3, for comparison with the behaviour
above: the half-open interval is non-empty, does not overflow, and is
contained within a SINGLE region. -/
def contains_range_single_region (addr size : Nat) (maps : List MapRange) : Bool :=
  decide (0 < size) && decide (addr + size < 2 ^ 64) &&
    maps.any (fun m => decide (m.range_start ≤ addr) && decide (addr + size ≤ m.range_end))

/-! ## Concrete fixtures

`rangeTestVec` is the three-region collection of the in-repository test
`test_contains_addr_range`; the four records below are the expected output
of `test_parse_maps`. -/

/-- First region of `test_contains_addr_range`. -/
def testRegion1 : MapRange :=
  { range_start := 0x00400000, range_end := 0x00500000, offset := 0,
    dev := "00:14", flags := "r-xp", inode := 205736,
    pathname := some "/usr/bin/fish" }

/-- Second region of `test_contains_addr_range`. -/
def testRegion2 : MapRange :=
  { range_start := 0x00600000, range_end := 0x00700000, offset := 0,
    dev := "00:14", flags := "r--p", inode := 205736,
    pathname := some "/usr/bin/fish" }

/-- Third region of `test_contains_addr_range`, flush against the second. -/
def testRegion3 : MapRange :=
  { range_start := 0x00700000, range_end := 0x00800000, offset := 0,
    dev := "00:14", flags := "r--p", inode := 205736,
    pathname := some "/usr/bin/fish" }

/-- The region collection used by `test_contains_addr_range`. -/
def rangeTestVec : List MapRange := [testRegion1, testRegion2, testRegion3]

/-- Modelled from the spec: the sample listing file `ci/testdata/map.txt`
is not among the provided sources; this four-line listing is reconstructed
from the expected records of the in-repository test `test_parse_maps`
(one `/usr/bin/fish` mapping, one anonymous mapping, `[heap]`, and a
deleted library). -/
def sampleListing : String :=
  "00400000-00507000 r-xp 00000000 00:14 205736 /usr/bin/fish\n" ++
  "00708000-0070a000 rw-p 00000000 00:00 0\n" ++
  "0178c000-01849000 rw-p 00000000 00:00 0 [heap]\n" ++
  "7f438050-7f438060 r--p 00000000 fd:01 59034409 /usr/lib/x86_64-linux-gnu/libgmodule-2.0.so.0.4200.6 (deleted)\n"

/-- Expected first record of `test_parse_maps`. -/
def fishRec : MapRange :=
  { range_start := 0x00400000, range_end := 0x00507000, offset := 0,
    dev := "00:14", flags := "r-xp", inode := 205736,
    pathname := some "/usr/bin/fish" }

/-- Expected second record of `test_parse_maps` (anonymous mapping). -/
def anonRec : MapRange :=
  { range_start := 0x00708000, range_end := 0x0070a000, offset := 0,
    dev := "00:00", flags := "rw-p", inode := 0, pathname := none }

/-- Expected third record of `test_parse_maps` (`[heap]` pseudo-path). -/
def heapRec : MapRange :=
  { range_start := 0x0178c000, range_end := 0x01849000, offset := 0,
    dev := "00:00", flags := "rw-p", inode := 0, pathname := some "[heap]" }

/-- Expected fourth record of `test_parse_maps` (deleted library). -/
def deletedRec : MapRange :=
  { range_start := 0x7f438050, range_end := 0x7f438060, offset := 0,
    dev := "fd:01", flags := "r--p", inode := 59034409,
    pathname := some "/usr/lib/x86_64-linux-gnu/libgmodule-2.0.so.0.4200.6 (deleted)" }

/-- A single region spanning the whole address space; representable, and
producible by the parser from `0-ffffffffffffffff ...`. -/
def hugeRegion : MapRange :=
  { range_start := 0, range_end := USIZE_MAX, offset := 0,
    dev := "00:00", flags := "rw-p", inode := 0, pathname := none }

/-- Record produced from the listing line `0-0 rw-p 0 00:00 0`. -/
def zeroRec : MapRange :=
  { range_start := 0, range_end := 0, offset := 0,
    dev := "00:00", flags := "rw-p", inode := 0, pathname := none }

/-- Record produced from the listing line `0-1 r 0 00:00 0`: its
permission string has fewer than 3 characters. -/
def shortFlagsRec : MapRange :=
  { range_start := 0, range_end := 1, offset := 0,
    dev := "00:00", flags := "r", inode := 0, pathname := none }

/-- Record whose permission string starts with a two-byte character, so
byte positions and character positions disagree. -/
def exoticRec : MapRange :=
  { range_start := 0, range_end := 1, offset := 0,
    dev := "00:00", flags := "éxp", inode := 0, pathname := none }

/-! ## Validation of the model against the repository's own tests -/

/-- The modelled query layer reproduces all ten assertions of the
in-repository test `test_contains_addr_range`. -/
theorem model_matches_test_contains_addr_range :
    maps_contain_addr_range 0x00400000 0x1 rangeTestVec = true ∧
    maps_contain_addr_range 0x00400000 0x100000 rangeTestVec = true ∧
    maps_contain_addr_range (0x00500000 - 1) 1 rangeTestVec = true ∧
    maps_contain_addr_range 0x00600000 0x100001 rangeTestVec = true ∧
    maps_contain_addr_range 0x00600000 0x200000 rangeTestVec = true ∧
    maps_contain_addr_range 0x00400000 0x100001 rangeTestVec = false ∧
    maps_contain_addr_range 0x00400000 USIZE_MAX rangeTestVec = false ∧
    maps_contain_addr_range 0x00400000 0 rangeTestVec = false ∧
    maps_contain_addr_range 0x00400000 0x00200000 rangeTestVec = false ∧
    maps_contain_addr_range 0x00400000 0x00200001 rangeTestVec = false := by
  decide

/-- The modelled `maps_contain_addr` reproduces the two containment
assertions of the in-repository test `test_parse_maps`. -/
theorem model_matches_test_parse_maps_addr :
    maps_contain_addr 0x00400000 [fishRec, anonRec, heapRec, deletedRec] = true ∧
    maps_contain_addr 0x00300000 [fishRec, anonRec, heapRec, deletedRec] = false := by
  decide

/-! ## Claim theorems -/

set_option maxRecDepth 10000 in
/-- C6: parsing the four-entry sample listing (a `/usr/bin/fish` mapping,
an anonymous mapping, a `[heap]` mapping, and a deleted-library mapping)
yields exactly four records whose start, end and offset equal the
hex-decoded field values and whose inode equals the decimal field value,
with the ` (deleted)` suffix preserved verbatim in the pathname. -/
theorem parse_sample_listing :
    parse_proc_maps sampleListing = some [fishRec, anonRec, heapRec, deletedRec] ∧
    deletedRec.pathname =
      some "/usr/lib/x86_64-linux-gnu/libgmodule-2.0.so.0.4200.6 (deleted)" := by
  decide

/-- C10: the parser stores the second field verbatim without checking its
length, so the listing `0-1 r 0 00:00 0` is accepted, yet `is_exec` and
`is_write` on the resulting record hit the out-of-bounds slicing branch
(modelled as `none`, a panic in the Rust code). -/
theorem short_flags_slicing_reachable :
    parse_proc_maps "0-1 r 0 00:00 0" = some [shortFlagsRec] ∧
    MapRange.is_exec shortFlagsRec = none ∧
    MapRange.is_write shortFlagsRec = none ∧
    MapRange.is_read shortFlagsRec = some true := by
  decide

/-- C1 counterexample: on the very region collection of the repository's
own `test_contains_addr_range`, the interval `[0x600000, 0x800000)` spans
two back-to-back regions; the query returns true while the spec's
single-region reading returns false, so "contained within a SINGLE region"
does not describe the code. -/
theorem range_spanning_adjacent_regions_contained :
    maps_contain_addr_range 0x00600000 0x200000 rangeTestVec = true ∧
    contains_range_single_region 0x00600000 0x200000 rangeTestVec = false := by
  decide

/-- C2 counterexample: at `addr = 0` the sum `0 + SIZE_MAX` does not
overflow, and with a region covering the whole address space the range
query returns true, so `contains_address_range(addr, SIZE_MAX)` is not
false for every `addr` and collection. -/
theorem size_max_at_addr_zero_contained :
    maps_contain_addr_range 0 USIZE_MAX [hugeRegion] = true := by
  decide

/-- C2 (amended): the modelled range query returns false unconditionally
when `size = 0`, returns false whenever `addr + size` overflows the 64-bit
address width, and in particular is false at `size = SIZE_MAX` for every
`addr ≥ 1`. -/
theorem maps_contain_addr_range_guards (addr size : Nat) (maps : List MapRange) :
    (size = 0 → maps_contain_addr_range addr size maps = false) ∧
    (2 ^ 64 ≤ addr + size → maps_contain_addr_range addr size maps = false) ∧
    (1 ≤ addr → maps_contain_addr_range addr USIZE_MAX maps = false) := by
  refine ⟨fun h => ?_, fun h => ?_, fun h => ?_⟩
  · unfold maps_contain_addr_range
    rw [if_pos h]
  · unfold maps_contain_addr_range
    by_cases hs : size = 0
    · rw [if_pos hs]
    · rw [if_neg hs, if_pos h]
  · unfold maps_contain_addr_range
    have hs : ¬ USIZE_MAX = 0 := by simp [USIZE_MAX]
    have hov : 2 ^ 64 ≤ addr + USIZE_MAX := by
      simp only [USIZE_MAX]; omega
    rw [if_neg hs, if_pos hov]

/-- Witness for the amended C2 guards at concrete inputs. -/
theorem maps_contain_addr_range_guards_witness :
    maps_contain_addr_range 7 0 rangeTestVec = false ∧
    maps_contain_addr_range 1 USIZE_MAX rangeTestVec = false :=
  ⟨(maps_contain_addr_range_guards 7 0 rangeTestVec).1 rfl,
   (maps_contain_addr_range_guards 1 USIZE_MAX rangeTestVec).2.2 (by decide)⟩

/-- C3 counterexample: the listing `400000-500000 r-xp 0 00:14 5`, a blank
line, then `not-a valid line` contains a line that fails the grammar
(three fields), yet the parse call succeeds and returns one record: a
grammar failure after a field-less line is not fatal. -/
theorem bad_line_after_blank_not_fatal :
    parse_proc_maps "400000-500000 r-xp 0 00:14 5\n\nnot-a valid line" =
      some [{ range_start := 0x400000, range_end := 0x500000, offset := 0,
              dev := "00:14", flags := "r-xp", inode := 5, pathname := none }] ∧
    splitWS "not-a valid line".data ≠ [] ∧
    parseMapLine (splitWS "not-a valid line".data) = none := by
  decide

/-- C4 counterexample: the accepted listing `0-0 rw-p 0 00:00 0` produces
a record with `range_start = range_end = 0`; the parser does not enforce
`start < end`. -/
theorem zero_length_region_produced :
    parse_proc_maps "0-0 rw-p 0 00:00 0" = some [zeroRec] ∧
    zeroRec.range_start = zeroRec.range_end := by
  decide

/-- C9 counterexample: on a record whose permission string starts with a
two-byte character, `is_exec` slices bytes `2..3` and finds `x`, yet the
character at position 2 is `p`: the fixed positions are byte positions,
not character positions. -/
theorem is_exec_byte_vs_char_position :
    MapRange.is_exec exoticRec = some true ∧
    exoticRec.flags.data[2]? = some 'p' ∧ ('p' = 'x' → False) := by
  decide

/-- Point containment unfolded: some region's half-open interval holds the
address. -/
lemma maps_contain_addr_iff (addr : Nat) (maps : List MapRange) :
    maps_contain_addr addr maps = true ↔
      ∃ m ∈ maps, m.range_start ≤ addr ∧ addr < m.range_end := by
  simp [maps_contain_addr, MapRange.contains_addr, List.any_eq_true]

/-- C8: a line that splits into no whitespace-separated fields terminates
the parsing loop: whatever follows it is ignored and the call returns the
records of the preceding lines, with no error. -/
theorem blank_line_terminates_parse (ls₁ : List (List Char)) (blank : List Char)
    (ls₂ : List (List Char)) (h : splitWS blank = []) :
    parseLinesGo (ls₁ ++ blank :: ls₂) = parseLinesGo ls₁ := by
  induction ls₁ with
  | nil => simp [parseLinesGo, h]
  | cons l ls ih =>
    simp only [List.cons_append, parseLinesGo]
    cases hf : splitWS l with
    | nil => rfl
    | cons f fs =>
      cases hp : parseMapLine (f :: fs) with
      | none => simp only [hp]
      | some r => simp only [hp, List.append_eq, ih]

/-- Witness for C8: a whitespace-only line stops the parse and the
malformed text after it is never seen. -/
theorem blank_line_terminates_parse_witness :
    parseLinesGo (["0-1 r-xp 0 00:00 0".data] ++ "  ".data :: ["zz-1 garbage".data]) =
      parseLinesGo ["0-1 r-xp 0 00:00 0".data] :=
  blank_line_terminates_parse ["0-1 r-xp 0 00:00 0".data] "  ".data ["zz-1 garbage".data]
    (by decide)

/-- C3 (amended): a grammar-failing line occurring before any field-less
line makes the whole parse call fail with zero records; only lines after a
terminating field-less line escape this rule. -/
theorem bad_line_before_blank_fatal (ls₁ : List (List Char)) (bad : List Char)
    (ls₂ : List (List Char))
    (h₁ : ∀ l ∈ ls₁, splitWS l ≠ [])
    (h₂ : splitWS bad ≠ [])
    (h₃ : parseMapLine (splitWS bad) = none) :
    parseLinesGo (ls₁ ++ bad :: ls₂) = none := by
  induction ls₁ with
  | nil =>
    cases hf : splitWS bad with
    | nil => exact absurd hf h₂
    | cons f fs =>
      rw [hf] at h₃
      simp [parseLinesGo, hf, h₃]
  | cons l ls ih =>
    have hl := h₁ l (List.mem_cons_self l ls)
    cases hf : splitWS l with
    | nil => exact absurd hf hl
    | cons f fs =>
      cases hp : parseMapLine (f :: fs) with
      | none => simp [parseLinesGo, hf, hp]
      | some r =>
        have ih' := ih (fun x hx => h₁ x (List.mem_cons_of_mem l hx))
        simp [parseLinesGo, hf, hp, ih']

/-- Witness for the amended C3: a line whose range field has non-hex
characters, placed before any blank line, makes the parse return `none`. -/
theorem bad_line_before_blank_fatal_witness :
    parseLinesGo (["0-1 r-xp 0 00:00 0".data] ++ "zz-1 r-xp 0 00:14 5".data :: []) = none :=
  bad_line_before_blank_fatal ["0-1 r-xp 0 00:00 0".data] "zz-1 r-xp 0 00:14 5".data []
    (by decide) (by decide) (by decide)

/-- C4 (amended): every accepted listing yields records in the same
relative order as their source lines — record `i` is exactly the parse of
line `i` — and consequently `start < end` holds for every record exactly
when it holds for the decoded fields of the lines; the parser itself does
not enforce it. -/
theorem parse_preserves_order_and_fields (lines : List (List Char)) (rs : List MapRange)
    (h : parseLinesGo lines = some rs) :
    rs.length ≤ lines.length ∧
    (∀ i, i < rs.length →
      ∃ l r, lines[i]? = some l ∧ rs[i]? = some r ∧ parseMapLine (splitWS l) = some r) ∧
    ((∀ l ∈ lines, ∀ r, parseMapLine (splitWS l) = some r →
        r.range_start < r.range_end) →
      ∀ r ∈ rs, r.range_start < r.range_end) := by
  induction lines generalizing rs with
  | nil =>
    simp only [parseLinesGo, Option.some.injEq] at h
    subst h
    simp
  | cons l ls ih =>
    simp only [parseLinesGo] at h
    cases hf : splitWS l with
    | nil =>
      rw [hf] at h
      simp only [Option.some.injEq] at h
      subst h
      simp
    | cons f fs =>
      rw [hf] at h
      cases hp : parseMapLine (f :: fs) with
      | none => simp only [hp] at h; cases h
      | some r =>
        simp only [hp] at h
        obtain ⟨rs', hrs', rfl⟩ := Option.map_eq_some'.mp h
        obtain ⟨hlen, hidx, hwf⟩ := ih rs' hrs'
        refine ⟨by simpa using Nat.succ_le_succ hlen, ?_, ?_⟩
        · intro i hi
          cases i with
          | zero =>
            exact ⟨l, r, by simp, by simp, by rw [hf]; exact hp⟩
          | succ j =>
            obtain ⟨l', r', hl', hr', hpr⟩ := hidx j (by simpa using hi)
            exact ⟨l', r', by simpa using hl', by simpa using hr', hpr⟩
        · intro hall r' hr'
          rcases List.mem_cons.mp hr' with rfl | hr'mem
          · exact hall l (List.mem_cons_self l ls) r' (by rw [hf]; exact hp)
          · exact hwf (fun x hx => hall x (List.mem_cons_of_mem l hx)) r' hr'mem

/-- Witness for the amended C4 at a concrete one-line listing. -/
theorem parse_preserves_order_and_fields_witness :
    ([shortFlagsRec] : List MapRange).length ≤ ["0-1 r 0 00:00 0".data].length :=
  (parse_preserves_order_and_fields ["0-1 r 0 00:00 0".data] [shortFlagsRec]
    (by decide)).1

/-- C7: whenever a line parses, the record's pathname is exactly the
whitespace-separated tokens after the fifth field rejoined with single
spaces, and an empty rejoined result yields no pathname — never the empty
string. -/
theorem pathname_rejoined_or_absent (fields : List (List Char)) (r : MapRange)
    (h : parseMapLine fields = some r) :
    r.pathname = pathnameOfRest (fields.drop 5) ∧ r.pathname ≠ some "" := by
  match fields with
  | [] => simp [parseMapLine] at h
  | [a] => simp [parseMapLine] at h
  | [a, b] => simp [parseMapLine] at h
  | [a, b, c] => simp [parseMapLine] at h
  | [a, b, c, d] => simp [parseMapLine] at h
  | range :: flags :: offset :: dev :: inode :: rest =>
    simp only [parseMapLine] at h
    cases hsp : splitOnChar '-' range with
    | nil => rw [hsp] at h; cases h
    | cons x xs =>
      cases xs with
      | nil => rw [hsp] at h; cases h
      | cons y ys =>
        rw [hsp] at h
        simp only [Option.bind_eq_bind, Option.bind_eq_some, Option.some.injEq] at h
        obtain ⟨s, hs, e, he, off, hoff, ino, hino, hrec⟩ := h
        subst hrec
        constructor
        · simp
        · intro hcontra
          simp only [pathnameOfRest] at hcontra
          split at hcontra
          · exact Option.noConfusion hcontra
          · next hne =>
              simp only [Option.some.injEq] at hcontra
              exact hne (congrArg String.data hcontra)

/-- Witness for C7 at a concrete line with a two-token pathname. -/
theorem pathname_rejoined_or_absent_witness :
    (MapRange.pathname
        { range_start := 0, range_end := 1, offset := 0, dev := "00:14",
          flags := "r-xp", inode := 5, pathname := some "/a b" }) =
      pathnameOfRest ((splitWS "0-1 r-xp 0 00:14 5 /a b".data).drop 5) ∧
    (MapRange.pathname
        { range_start := 0, range_end := 1, offset := 0, dev := "00:14",
          flags := "r-xp", inode := 5, pathname := some "/a b" }) ≠ some "" :=
  pathname_rejoined_or_absent (splitWS "0-1 r-xp 0 00:14 5 /a b".data)
    { range_start := 0, range_end := 1, offset := 0, dev := "00:14",
      flags := "r-xp", inode := 5, pathname := some "/a b" } (by decide)

/-- C5: point containment is half-open — true iff some region satisfies
`start <= addr < end`; every region contains its own start, and a region's
end is contained only when another region starts exactly there (for
well-formed, pairwise non-overlapping collections, as the source listing
guarantees). -/
theorem maps_contain_addr_halfopen (maps : List MapRange) (r : MapRange)
    (hr : r ∈ maps)
    (hwf : ∀ m ∈ maps, m.range_start < m.range_end)
    (hdisj : ∀ a ∈ maps, ∀ b ∈ maps, a ≠ b →
      a.range_end ≤ b.range_start ∨ b.range_end ≤ a.range_start) :
    (∀ addr, maps_contain_addr addr maps = true ↔
      ∃ m ∈ maps, m.range_start ≤ addr ∧ addr < m.range_end) ∧
    maps_contain_addr r.range_start maps = true ∧
    (maps_contain_addr r.range_end maps = true ↔
      ∃ m ∈ maps, m ≠ r ∧ m.range_start = r.range_end) := by
  refine ⟨fun addr => maps_contain_addr_iff addr maps, ?_, ?_, ?_⟩
  · exact (maps_contain_addr_iff r.range_start maps).mpr
      ⟨r, hr, Nat.le_refl _, hwf r hr⟩
  · intro h
    obtain ⟨m, hm, h1, h2⟩ := (maps_contain_addr_iff r.range_end maps).mp h
    have hrwf := hwf r hr
    have hne : m ≠ r := by
      intro heq
      subst heq
      omega
    rcases hdisj m hm r hr hne with hcase | hcase
    · exact absurd hcase (by omega)
    · exact ⟨m, hm, hne, by omega⟩
  · rintro ⟨m, hm, hne, hstart⟩
    exact (maps_contain_addr_iff r.range_end maps).mpr
      ⟨m, hm, by omega, by have := hwf m hm; omega⟩

/-- Witness for C5 on the three-region collection of the repository's own
test: the first region contains its own start address. -/
theorem maps_contain_addr_halfopen_witness :
    maps_contain_addr testRegion1.range_start rangeTestVec = true :=
  (maps_contain_addr_halfopen rangeTestVec testRegion1 (by decide) (by decide)
    (by decide)).2.1

/-- A pointwise-weaker predicate selects at most as many elements. -/
lemma length_filter_mono {α : Type} (l : List α) (p q : α → Bool)
    (himp : ∀ a ∈ l, p a = true → q a = true) :
    (l.filter p).length ≤ (l.filter q).length := by
  induction l with
  | nil => simp
  | cons a t ih =>
    have ht : ∀ x ∈ t, p x = true → q x = true :=
      fun x hx => himp x (List.mem_cons_of_mem a hx)
    by_cases hpa : p a = true
    · have hqa := himp a (List.mem_cons_self a t) hpa
      simp only [List.filter_cons, hpa, hqa, if_pos, List.length_cons]
      exact Nat.succ_le_succ (ih ht)
    · have hpa' : p a = false := Bool.eq_false_iff.mpr hpa
      by_cases hqa : q a = true
      · simp only [List.filter_cons, hpa', hqa, Bool.false_eq_true, if_false, if_pos,
          List.length_cons]
        exact Nat.le_succ_of_le (ih ht)
      · have hqa' : q a = false := Bool.eq_false_iff.mpr hqa
        simp only [List.filter_cons, hpa', hqa', Bool.false_eq_true, if_false]
        exact ih ht

/-- A pointwise-weaker predicate selects strictly fewer elements when some
listed element separates the two. -/
lemma length_filter_strict {α : Type} (l : List α) (p q : α → Bool)
    (himp : ∀ a ∈ l, p a = true → q a = true)
    (x : α) (hx : x ∈ l) (hqx : q x = true) (hpx : p x = false) :
    (l.filter p).length < (l.filter q).length := by
  induction l with
  | nil => cases hx
  | cons a t ih =>
    have ht : ∀ y ∈ t, p y = true → q y = true :=
      fun y hy => himp y (List.mem_cons_of_mem a hy)
    rcases List.mem_cons.mp hx with rfl | hxt
    · simp only [List.filter_cons, hpx, hqx, Bool.false_eq_true, if_false, if_pos,
        List.length_cons]
      exact Nat.lt_succ_of_le (length_filter_mono t p q ht)
    · have hstrict := ih ht hxt
      by_cases hpa : p a = true
      · have hqa := himp a (List.mem_cons_self a t) hpa
        simp only [List.filter_cons, hpa, hqa, if_pos, List.length_cons]
        omega
      · have hpa' : p a = false := Bool.eq_false_iff.mpr hpa
        by_cases hqa : q a = true
        · simp only [List.filter_cons, hpa', hqa, Bool.false_eq_true, if_false, if_pos,
            List.length_cons]
          omega
        · have hqa' : q a = false := Bool.eq_false_iff.mpr hqa
          simp only [List.filter_cons, hpa', hqa', Bool.false_eq_true, if_false]
          exact hstrict

/-- Soundness of the range walk: when it succeeds, every address of the
interval is contained in some region. -/
lemma containRangeGo_covers (maps : List MapRange) :
    ∀ fuel start size, containRangeGo maps fuel start size = true →
      ∀ a, start ≤ a → a < start + size → maps_contain_addr a maps = true := by
  intro fuel
  induction fuel with
  | zero =>
    intro start size h
    simp [containRangeGo] at h
  | succ fuel ih =>
    intro start size h a ha1 ha2
    simp only [containRangeGo] at h
    by_cases hs : size = 0
    · omega
    · rw [if_neg hs] at h
      split at h
      · cases h
      · next m hfind =>
        have hmem := List.mem_of_find?_eq_some hfind
        have hpred := List.find?_some hfind
        have hms : m.range_start ≤ start ∧ start < m.range_end := by
          simpa [MapRange.contains_addr] using hpred
        split at h
        · next hfit =>
          exact (maps_contain_addr_iff a maps).mpr ⟨m, hmem, by omega, by omega⟩
        · next hfit =>
          by_cases hlt : a < m.range_end
          · exact (maps_contain_addr_iff a maps).mpr ⟨m, hmem, by omega, hlt⟩
          · exact ih m.range_end (size - (m.range_end - start)) h a (by omega) (by omega)

/-- Completeness of the range walk: a fully covered non-empty interval is
accepted, provided the fuel exceeds the number of regions ending beyond
the interval's start. -/
lemma containRangeGo_complete (maps : List MapRange) :
    ∀ fuel start size,
      0 < size →
      (∀ a, start ≤ a → a < start + size → maps_contain_addr a maps = true) →
      (maps.filter (fun m => decide (start < m.range_end))).length < fuel →
      containRangeGo maps fuel start size = true := by
  intro fuel
  induction fuel with
  | zero =>
    intro start size hs hcov hfuel
    exact absurd hfuel (Nat.not_lt_zero _)
  | succ fuel ih =>
    intro start size hs hcov hfuel
    have hstart := hcov start (Nat.le_refl _) (by omega)
    obtain ⟨m₀, hm₀, hc₀⟩ := List.any_eq_true.mp
      (show maps.any (fun m => m.contains_addr start) = true from hstart)
    simp only [containRangeGo]
    rw [if_neg (by omega : ¬ size = 0)]
    split
    · next hfind =>
      have hnone := List.find?_eq_none.mp hfind m₀ hm₀
      exact absurd hc₀ (by simpa using hnone)
    · next m hfind =>
      have hmem := List.mem_of_find?_eq_some hfind
      have hpred := List.find?_some hfind
      have hms : m.range_start ≤ start ∧ start < m.range_end := by
        simpa [MapRange.contains_addr] using hpred
      split
      · rfl
      · next hfit =>
        apply ih m.range_end (size - (m.range_end - start)) (by omega)
        · intro a ha1 ha2
          exact hcov a (by omega) (by omega)
        · have hstrict := length_filter_strict maps
            (fun m' => decide (m.range_end < m'.range_end))
            (fun m' => decide (start < m'.range_end))
            (fun a _ hpa => by
              simp only [decide_eq_true_eq] at hpa ⊢
              omega)
            m hmem (by simpa using hms.2) (by simp)
          omega

/-- C1 (amended): the range query returns true iff the interval is
non-empty, `addr + size` does not overflow the 64-bit address width, and
every address of `[addr, addr+size)` lies in some region — the walk merges
back-to-back regions, so an interval may span several contiguous regions;
it is rejected exactly when it reaches unmapped space. -/
theorem maps_contain_addr_range_iff_covered (start size : Nat) (maps : List MapRange) :
    maps_contain_addr_range start size maps = true ↔
      0 < size ∧ start + size < 2 ^ 64 ∧
        ∀ a, start ≤ a → a < start + size → maps_contain_addr a maps = true := by
  constructor
  · intro h
    unfold maps_contain_addr_range at h
    by_cases hs : size = 0
    · rw [if_pos hs] at h; cases h
    · rw [if_neg hs] at h
      by_cases hov : 2 ^ 64 ≤ start + size
      · rw [if_pos hov] at h; cases h
      · rw [if_neg hov] at h
        exact ⟨by omega, by omega, containRangeGo_covers maps _ start size h⟩
  · rintro ⟨hs, hov, hcov⟩
    unfold maps_contain_addr_range
    rw [if_neg (by omega : ¬ size = 0), if_neg (by omega : ¬ 2 ^ 64 ≤ start + size)]
    apply containRangeGo_complete maps (maps.length + 1) start size hs hcov
    have hle := List.length_filter_le (fun m => decide (start < m.range_end)) maps
    omega

/-- Witness for the amended C1, extracted from the coverage equivalence at
the spanning interval of the repository's own test. -/
theorem maps_contain_addr_range_iff_covered_witness :
    0 < 0x200000 ∧ 0x00600000 + 0x200000 < 2 ^ 64 ∧
      ∀ a, 0x00600000 ≤ a → a < 0x00600000 + 0x200000 →
        maps_contain_addr a rangeTestVec = true :=
  (maps_contain_addr_range_iff_covered 0x00600000 0x200000 rangeTestVec).mp (by decide)

/-- A one-byte slice succeeding at position `i` is the singleton of the
byte at index `i`. -/
lemma byteSlice_one (bs : List Nat) (i : Nat) (s : List Nat)
    (h : byteSlice bs i (i + 1) = some s) (v : Nat) :
    s = [v] ↔ bs[i]? = some v := by
  unfold byteSlice at h
  split at h
  · simp only [Option.some.injEq] at h
    subst h
    have hdt : (bs.drop i).take (i + 1 - i) = (bs.drop i).take 1 := by
      congr 1
      omega
    rw [hdt]
    cases hd : bs.drop i with
    | nil =>
      have h0 := List.getElem?_drop bs i 0
      rw [hd] at h0
      have hnone : bs[i]? = none := by simpa using h0.symm
      simp [hnone]
    | cons b t =>
      have h0 := List.getElem?_drop bs i 0
      rw [hd] at h0
      have hb : bs[i]? = some b := by simpa using h0.symm
      simp [hb, List.take]
  · cases h

/-- C9 (amended): the capability predicates test fixed BYTE positions of
the permission string — `is_read` is true iff byte 0 is `r` (0x72),
`is_write` iff byte 1 is `w` (0x77), `is_exec` iff byte 2 is `x` (0x78);
for the all-ASCII permission strings of the listing format these coincide
with character positions 0, 1 and 2. -/
theorem perm_flags_byte_positions (m : MapRange) (b : Bool) :
    (MapRange.is_read m = some b → (b = true ↔ (strBytes m.flags)[0]? = some 0x72)) ∧
    (MapRange.is_write m = some b → (b = true ↔ (strBytes m.flags)[1]? = some 0x77)) ∧
    (MapRange.is_exec m = some b → (b = true ↔ (strBytes m.flags)[2]? = some 0x78)) := by
  refine ⟨fun h => ?_, fun h => ?_, fun h => ?_⟩
  · obtain ⟨s, hs, hb⟩ := Option.map_eq_some'.mp h
    subst hb
    simp only [decide_eq_true_eq]
    exact byteSlice_one (strBytes m.flags) 0 s hs 0x72
  · obtain ⟨s, hs, hb⟩ := Option.map_eq_some'.mp h
    subst hb
    simp only [decide_eq_true_eq]
    exact byteSlice_one (strBytes m.flags) 1 s hs 0x77
  · obtain ⟨s, hs, hb⟩ := Option.map_eq_some'.mp h
    subst hb
    simp only [decide_eq_true_eq]
    exact byteSlice_one (strBytes m.flags) 2 s hs 0x78

/-- Witness for the amended C9 on the `r-xp` permission string. -/
theorem perm_flags_byte_positions_witness :
    true = true ↔ (strBytes fishRec.flags)[0]? = some 0x72 :=
  (perm_flags_byte_positions fishRec true).1 (by decide)
